import Mathlib

/-!
Shallow embedding of the two chunk packers of this repository:
chunk_paper.py (section-based PDF chunker) and analyze_code.py
(source-tree analyzer).  Python strings are modelled as List Char,
Python ints as Nat (every quantity in scope is non-negative), and
Python dicts with possibly-absent keys as structures with Option
fields.  Operations that can raise (dictionary key errors) return
Option.  Line numbers in comments refer to the Python sources.
-/

/-- Python whitespace, as used by str.strip and the regex class \s
(space, tab, LF, CR, VT, FF). -/
def isPySpace (c : Char) : Bool :=
  c == ' ' || c == '\t' || c == '\n' || c == '\r' || c == '\x0b' || c == '\x0c'

/-- Python str.strip(): drop leading and trailing whitespace. -/
def stripChars (s : List Char) : List Char :=
  ((s.dropWhile isPySpace).reverse.dropWhile isPySpace).reverse

/-- chunk_paper.estimate_tokens (line 71): len(text) // 4.  analyze_code's
OutputGenerator.estimate_tokens (line 321) computes int(len(text) * 0.25),
which is the same value: 0.25 is an exact binary float, so the product is
exact for any representable length and int() truncation of a non-negative
exact multiple equals floor division by 4. -/
def estimate_tokens (s : List Char) : Nat := s.length / 4

/-- Python slicing text[a:b] for non-negative bounds (clamps like Python). -/
def pySlice (s : List Char) (a b : Nat) : List Char := (s.drop a).take (b - a)

/-- Python text.split with a two-newline separator: leftmost
non-overlapping splitting, empty input gives one empty field. -/
def splitParas : List Char → List (List Char)
  | '\n' :: '\n' :: rest => [] :: splitParas rest
  | c :: rest =>
      match splitParas rest with
      | p :: ps => (c :: p) :: ps
      | [] => [[c]]
  | [] => [[]]

/-- The two-character paragraph separator appended by the loops below. -/
def nlnl : List Char := ['\n', '\n']

/-- chunk_paper.py SECTION_PRIORITY (lines 46-66); keys are lowercase. -/
def SECTION_PRIORITY : List (List Char × Nat) := [
  ("abstract".data, 0), ("conclusion".data, 0), ("introduction".data, 2),
  ("method".data, 1), ("methodology".data, 1), ("approach".data, 1),
  ("experiment".data, 1), ("experiments".data, 1), ("results".data, 1),
  ("evaluation".data, 1), ("related work".data, 2), ("background".data, 2),
  ("discussion".data, 2), ("analysis".data, 2), ("ablation".data, 2),
  ("appendix".data, 3), ("supplementary".data, 3), ("references".data, 4),
  ("acknowledgements".data, 4)]

/-- First element of Python s.split(): the first maximal run of
non-whitespace characters. -/
def firstWord (s : List Char) : List Char :=
  (s.dropWhile isPySpace).takeWhile (fun c => !isPySpace c)

/-- SECTION_PRIORITY.get(normalized.split()[0] if normalized else '', 2)
(split_into_chunks, line 154).  On a non-empty all-whitespace normalized
string Python would raise IndexError; such a value cannot arise from
identify_sections (whose normalized strings are stripped), and the model
totalizes that corner to the .get default 2. -/
def rangePriority (normalized : List Char) : Nat :=
  match SECTION_PRIORITY.find?
      (fun kv => kv.1 == (if normalized.isEmpty then [] else firstWord normalized)) with
  | some kv => kv.2
  | none => 2

/-- A section range built by split_into_chunks lines 151-161
(the dict key named end is rendered stop). -/
structure SectionRange where
  start : Nat
  stop : Nat
  name : List Char
  normalized : List Char
  priority : Nat
deriving DecidableEq

/-- The end position of a section: the next section's start, or the end
of the text for the last section (line 153). -/
def nextStop (textLen : Nat) : List (Nat × List Char × List Char) → Nat
  | (s2, _, _) :: _ => s2
  | [] => textLen

/-- The section_ranges construction (lines 151-161): each range ends where
the next section starts, the last one at the end of the text. -/
def buildRanges (textLen : Nat) : List (Nat × List Char × List Char) → List SectionRange
  | [] => []
  | (s, name, normalized) :: rest =>
      (⟨s, nextStop textLen rest, name, normalized, rangePriority normalized⟩ :
        SectionRange) :: buildRanges textLen rest

/-- A chunk dict of chunk_paper.py.  priority, index and total are Option
because the dicts produced by split_by_tokens carry only
sections, text and tokens (lines 232-236, 244-248). -/
structure DChunk where
  sections : List (List Char)
  text : List Char
  priority : Option Nat
  tokens : Nat
  index : Option Nat
  total : Option Nat
deriving DecidableEq

/-- The loop of split_by_tokens (lines 228-248), including the final
flush guarded by current_text.strip(). -/
def sbtLoop (maxTokens : Nat) (sectionName : List Char) :
    List (List Char) → List Char → Nat → List DChunk → List DChunk
  | [], curText, curTokens, chunks =>
      if stripChars curText ≠ [] then
        chunks ++ [⟨[sectionName], stripChars curText, none, curTokens, none, none⟩]
      else chunks
  | para :: rest, curText, curTokens, chunks =>
      if curTokens + estimate_tokens para > maxTokens ∧ curText ≠ [] then
        sbtLoop maxTokens sectionName rest (para ++ nlnl) (estimate_tokens para)
          (chunks ++ [⟨[sectionName], stripChars curText, none, curTokens, none, none⟩])
      else
        sbtLoop maxTokens sectionName rest (curText ++ para ++ nlnl)
          (curTokens + estimate_tokens para) chunks

/-- split_by_tokens (lines 216-250). -/
def split_by_tokens (text : List Char) (maxTokens : Nat)
    (sectionName : List Char := "content".data) : List DChunk :=
  sbtLoop maxTokens sectionName (splitParas text) [] 0 []

/-- The current_chunk accumulator of split_into_chunks (lines 164-169);
its priority key is always present (initialized to 999). -/
structure Accum where
  sections : List (List Char)
  text : List Char
  priority : Nat
  tokens : Nat
deriving DecidableEq

def emptyAccum : Accum := ⟨[], [], 999, 0⟩

def accToChunk (a : Accum) : DChunk :=
  ⟨a.sections, a.text, some a.priority, a.tokens, none, none⟩

/-- Tagging of the sub-chunks of an oversized section
(split_into_chunks lines 184-186). -/
def tagSub (r : SectionRange) (c : DChunk) : DChunk :=
  { c with priority := some r.priority, sections := [r.name] }

/-- The main loop of split_into_chunks (lines 171-203), including the
final flush of a non-empty accumulator. -/
def packLoop (text : List Char) (maxTokens : Nat) :
    List SectionRange → Accum → List DChunk → List DChunk
  | [], acc, chunks =>
      if acc.text ≠ [] then chunks ++ [accToChunk acc] else chunks
  | r :: rest, acc, chunks =>
      if estimate_tokens (pySlice text r.start r.stop) > maxTokens then
        packLoop text maxTokens rest emptyAccum
          ((if acc.text ≠ [] then chunks ++ [accToChunk acc] else chunks) ++
            (split_by_tokens (pySlice text r.start r.stop) maxTokens r.name).map (tagSub r))
      else if acc.tokens + estimate_tokens (pySlice text r.start r.stop) > maxTokens ∧
          acc.text ≠ [] then
        packLoop text maxTokens rest
          ⟨[r.name], pySlice text r.start r.stop ++ nlnl, min 999 r.priority,
            estimate_tokens (pySlice text r.start r.stop)⟩
          (chunks ++ [accToChunk acc])
      else
        packLoop text maxTokens rest
          ⟨acc.sections ++ [r.name], acc.text ++ pySlice text r.start r.stop ++ nlnl,
            min acc.priority r.priority, acc.tokens + estimate_tokens (pySlice text r.start r.stop)⟩
          chunks

/-- Stable insertion used to model Python's stable list.sort with key
x['priority'] (line 206).  A stable sort by a key is uniquely determined,
so this insertion sort (which inserts each later element after all
elements with a key less than or equal to its own) is a faithful model.
In the sorted path every chunk carries a priority, so the getD default
is never observable. -/
def insertByPrio (c : DChunk) : List DChunk → List DChunk
  | [] => [c]
  | d :: ds =>
      if d.priority.getD 999 ≤ c.priority.getD 999 then d :: insertByPrio c ds
      else c :: d :: ds

def sortByPrio (l : List DChunk) : List DChunk :=
  l.foldl (fun acc c => insertByPrio c acc) []

/-- Index and total assignment after sorting (lines 209-211). -/
def assignIdx (l : List DChunk) : List DChunk :=
  l.enum.map (fun ic => { ic.2 with index := some ic.1, total := some l.length })

/-- split_into_chunks (lines 133-213).  The sections argument holds
(start_pos, section_name, normalized) triples as produced by
identify_sections.  With no sections the text is split by token count
and returned directly, without priority, index or total keys and
without sorting (lines 146-148). -/
def split_into_chunks (text : List Char)
    (sections : List (Nat × List Char × List Char)) (maxTokens : Nat) : List DChunk :=
  if sections.isEmpty then split_by_tokens text maxTokens
  else
    assignIdx (sortByPrio
      (packLoop text maxTokens (buildRanges text.length sections) emptyAccum []))

/-- The line starting at index i, up to (excluding) the next newline. -/
def lineAt (text : List Char) (i : Nat) : List Char :=
  (text.drop i).takeWhile (fun c => c != '\n')

/-- ASCII model of the regex class \w. -/
def isWordChar (c : Char) : Bool := c.isAlphanum || c == '_'

/-- Substitution of a leading number: strip leading digits, an optional
dot and following whitespace, only when at least one digit is present
(identify_sections line 124). -/
def stripLeadNum (s : List Char) : List Char :=
  if (s.dropWhile Char.isDigit).length == s.length then s
  else
    (match s.dropWhile Char.isDigit with
      | '.' :: r => r
      | ds => ds).dropWhile isPySpace

/-- The normalized-name computation of identify_sections (lines 124-125):
lowercase, strip a leading number, delete characters that are neither
word characters nor whitespace, strip. -/
def normalizeLine (line : List Char) : List Char :=
  stripChars ((stripLeadNum (line.map Char.toLower)).filter
    (fun c => isWordChar c || isPySpace c))

/-- identify_sections (lines 93-130), parametrized by the heading matcher
m, which abstracts the test "some SECTION_PATTERNS regex matches the
line, case-insensitively" (lines 118-119): the claims settled here do not
depend on the regexes themselves, only on the scan structure around them,
and hold for every matcher.  The scan visits every position that starts
a line, takes the stripped line, skips it when it is empty or longer than
100 characters, and otherwise records (start, line, normalized) when the
matcher accepts it. -/
def identify_sections (m : List Char → Bool) (text : List Char) :
    List (Nat × List Char × List Char) :=
  (List.range text.length).filterMap (fun i =>
    if i ≠ 0 ∧ text[i-1]? ≠ some '\n' then none
    else
      if stripChars (lineAt text i) = [] ∨ (stripChars (lineAt text i)).length > 100 then
        none
      else if m (stripChars (lineAt text i)) then
        some (i, stripChars (lineAt text i), normalizeLine (stripChars (lineAt text i)))
      else none)

/-- One manifest entry written by save_chunks (lines 290-296). -/
structure PManifestEntry where
  file : List Char
  index : Nat
  priority : List Char
  sections : List (List Char)
  tokens : Nat
deriving DecidableEq

/-- The manifest of chunk_paper.save_chunks (lines 265-269). -/
structure PManifest where
  source : List Char
  total_chunks : Nat
  chunks : List PManifestEntry
deriving DecidableEq

def natChars (n : Nat) : List Char := (Nat.repr n).data

/-- The f-string format {n:02d}: zero-pad to two digits. -/
def natChars2 (n : Nat) : List Char := if n < 10 then '0' :: natChars n else natChars n

/-- The label P0..P4 chosen by save_chunks line 273, with the .get
default 2 for a chunk without a priority key. -/
def priorityLabel (p : Option Nat) : List Char :=
  'P' :: natChars (min (p.getD 2) 4)

def chunkFileName (base : List Char) (i : Nat) (lab : List Char) : List Char :=
  base ++ "_chunk".data ++ natChars2 i ++ '_' :: lab ++ ".txt".data

/-- The per-chunk work of save_chunks (lines 271-296).  chunk['index'] and
chunk['total'] are read unconditionally (lines 274, 278), so a chunk
missing either key raises KeyError and aborts the run: modelled as none. -/
def saveChunksGo (base : List Char) : List DChunk → Option (List PManifestEntry)
  | [] => some []
  | c :: cs =>
      match c.index, c.total with
      | some i, some _ =>
          (saveChunksGo base cs).map
            (fun es => (⟨chunkFileName base i (priorityLabel c.priority), i,
                        priorityLabel c.priority, c.sections, c.tokens⟩ : PManifestEntry) :: es)
      | _, _ => none

/-- save_chunks (lines 253-304), modelled up to file I/O: it returns the
manifest value, or none when a KeyError aborts the run. -/
def save_chunks (base : List Char) (chunks : List DChunk) : Option PManifest :=
  (saveChunksGo base chunks).map (fun es => ⟨base, chunks.length, es⟩)

/-- chunk_paper.main after text extraction (lines 327-340): sections are
identified, chunks are built and saved.  The parsed --max-tokens value is
passed to split_into_chunks without any validation (lines 314-336). -/
def chunkPaperMain (m : List Char → Bool) (text base : List Char)
    (maxTokens : Nat) : Option PManifest :=
  save_chunks base (split_into_chunks text (identify_sections m text) maxTokens)

/-- Token of the small regex fragment used by FILE_PRIORITY: a literal
character, the wildcard star .*, or an optional literal character. -/
inductive RTok where
  | lit (c : Char)
  | anyStar
  | opt (c : Char)
deriving DecidableEq

def lits (s : String) : List RTok := s.data.map RTok.lit

/-- Fuel-indexed matcher for an end-anchored pattern built from literals,
a dot-star and single-character options; a match must consume the whole
input (every FILE_PRIORITY pattern ends in the anchor).  Every step
decreases pattern length plus input length, so the fuel supplied by
rmatchEnd always suffices. -/
def rmatchF : Nat → List RTok → List Char → Bool
  | 0, _, _ => false
  | _ + 1, [], s => s.isEmpty
  | fuel + 1, RTok.lit c :: ps, s =>
      match s with
      | [] => false
      | x :: xs => c == x && rmatchF fuel ps xs
  | fuel + 1, RTok.opt c :: ps, s =>
      rmatchF fuel ps s ||
        (match s with
         | x :: xs => c == x && rmatchF fuel ps xs
         | [] => false)
  | fuel + 1, RTok.anyStar :: ps, s =>
      rmatchF fuel ps s ||
        (match s with
         | _ :: xs => rmatchF fuel (RTok.anyStar :: ps) xs
         | [] => false)

def rmatchEnd (ps : List RTok) (s : List Char) : Bool :=
  rmatchF (ps.length + s.length + 1) ps s

/-- re.search with an end-anchored pattern: some start position admits a
match that reaches the end of the string. -/
def reSearch (ps : List RTok) (s : List Char) : Bool :=
  (List.range (s.length + 1)).any (fun i => rmatchEnd ps (s.drop i))

/-- FILE_PRIORITY (analyze_code.py lines 42-47), in dict insertion order;
dots inside the suffixes are escaped in the source, hence literal here. -/
def FILE_PRIORITY : List (Nat × List (List RTok)) := [
  (0, [lits "modeling_" ++ [RTok.anyStar] ++ lits ".py",
       lits "model.py", lits "models.py"]),
  (1, [lits "config" ++ [RTok.anyStar] ++ lits ".py",
       lits "attention" ++ [RTok.anyStar] ++ lits ".py",
       lits "transformer" ++ [RTok.anyStar] ++ lits ".py"]),
  (2, [lits "layer" ++ [RTok.opt 's'] ++ lits ".py",
       lits "module" ++ [RTok.opt 's'] ++ lits ".py",
       lits "embedding" ++ [RTok.opt 's'] ++ lits ".py"]),
  (3, [lits "train" ++ [RTok.anyStar] ++ lits ".py",
       [RTok.anyStar] ++ lits "_utils.py", lits "utils.py"])]

/-- CodeAnalyzer.get_priority (lines 116-122): first tier in insertion
order with a matching pattern, else 99. -/
def get_priority (filename : List Char) : Nat :=
  match FILE_PRIORITY.find? (fun pr => pr.2.any (fun p => reSearch p filename)) with
  | some pr => pr.1
  | none => 99

/-- A scanned file as consumed by OutputGenerator.generate_chunks.
source is the file content; the model assumes the re-read of lines
387-390 succeeds, as it does for every file parsed during the scan. -/
structure CFile where
  path : List Char
  priority : Nat
  total_lines : Nat
  source : List Char
deriving DecidableEq

/-- A chunk descriptor of generate_chunks (lines 405-411, 432-438). -/
structure CChunk where
  index : Nat
  priority : Nat
  filename : List Char
  files : List (List Char)
  tokens : Nat
deriving DecidableEq

/-- The per-file content string (generate_chunks line 392). -/
def fileContent (f : CFile) : List Char :=
  "# File: ".data ++ f.path ++ "\n# Priority: P".data ++ natChars f.priority ++
    "\n# Lines: ".data ++ natChars f.total_lines ++ "\n\n".data ++ f.source

/-- The replace step of lines 409 and 436: delete every leftmost
occurrence of the file marker from a string. -/
def stripFileTag : List Char → List Char
  | '#' :: ' ' :: 'F' :: 'i' :: 'l' :: 'e' :: ':' :: ' ' :: rest => stripFileTag rest
  | c :: rest => c :: stripFileTag rest
  | [] => []

/-- The member-name extraction of lines 409 and 436: first line of the
content, with the file marker removed. -/
def membersOfContent (c : List Char) : List Char :=
  stripFileTag (c.takeWhile (fun ch => ch != '\n'))

def cchunkName (i p : Nat) : List Char :=
  "chunk_".data ++ natChars2 i ++ "_P".data ++ natChars p ++ ".md".data

def mkCChunk (idx pr : Nat) (cur : List (List Char)) (tok : Nat) : CChunk :=
  ⟨idx, pr, cchunkName idx pr, cur.map membersOfContent, tok⟩

/-- The loop of OutputGenerator.generate_chunks (lines 383-441), with the
final flush of a non-empty current chunk.  Note the running priority is
overwritten with the priority of every processed file (line 421), so a
flushed chunk carries the priority of its last member. -/
def genLoop (maxTokens : Nat) :
    List CFile → List (List Char) → Nat → Nat → Nat → List CChunk → List CChunk
  | [], cur, tok, pr, idx, chunks =>
      if cur ≠ [] then chunks ++ [mkCChunk idx pr cur tok] else chunks
  | f :: rest, cur, tok, pr, idx, chunks =>
      if tok + estimate_tokens (fileContent f) > maxTokens ∧ cur ≠ [] then
        genLoop maxTokens rest [fileContent f] (estimate_tokens (fileContent f))
          f.priority (idx + 1) (chunks ++ [mkCChunk idx pr cur tok])
      else
        genLoop maxTokens rest (cur ++ [fileContent f])
          (tok + estimate_tokens (fileContent f)) f.priority idx chunks

/-- OutputGenerator.generate_chunks (lines 375-442). -/
def generate_chunks (maxTokens : Nat) (files : List CFile) : List CChunk :=
  genLoop maxTokens files [] 0 0 0 []

/-- The manifest of generate_manifest (lines 446-451). -/
structure CManifest where
  total_files : Nat
  total_chunks : Nat
  priority_distribution : List (List Char × Nat)
  chunks : List CChunk
deriving DecidableEq

/-- Insertion-ordered dict increment (generate_manifest lines 454-456). -/
def bumpKey (k : List Char) : List (List Char × Nat) → List (List Char × Nat)
  | [] => [(k, 1)]
  | (k', n) :: rest => if k' == k then (k', n + 1) :: rest else (k', n) :: bumpKey k rest

def priorityDist (files : List CFile) : List (List Char × Nat) :=
  files.foldl (fun acc f => bumpKey ('P' :: natChars f.priority) acc) []

def generate_manifest (files : List CFile) (chunks : List CChunk) : CManifest :=
  ⟨files.length, chunks.length, priorityDist files, chunks⟩

/-- analyze_code.main in --mode full after the directory scan (lines
498-518): zero scanned files is reported as a failure with exit code 1
and no manifest is produced; otherwise chunks and the manifest are
generated. -/
def analyzeCodeMain (files : List CFile) (maxTokens : Nat) : Except Nat CManifest :=
  if files.isEmpty then Except.error 1
  else Except.ok (generate_manifest files (generate_chunks maxTokens files))

/-!
### Verification predicates

These are specification predicates used to state loop invariants and
claim theorems; they are not translations of source code.
-/

/-- In-order concatenation of the member-name lists of chunk_paper chunks. -/
def concatSections (l : List DChunk) : List (List Char) :=
  l.foldr (fun c acc => c.sections ++ acc) []

/-- In-order concatenation of the member-file lists of analyze_code chunks. -/
def concatFiles (l : List CChunk) : List (List Char) :=
  l.foldr (fun c acc => c.files ++ acc) []

/-- Shape of a chunk produced by the split_by_tokens loop: one member
name, no priority/index/total keys, and a size estimate within budget
unless the chunk consists of exactly one paragraph (drawn from P) whose
own estimate exceeds the budget. -/
def SbtGood (maxT : Nat) (name : List Char) (P : List Char → Prop) (c : DChunk) : Prop :=
  c.sections = [name] ∧ c.priority = none ∧ c.index = none ∧ c.total = none ∧
    (c.tokens ≤ maxT ∨
      ∃ para, P para ∧ c.text = stripChars (para ++ nlnl) ∧
        c.tokens = estimate_tokens para ∧ maxT < estimate_tokens para)

/-- The running minimum of member priorities as computed by the
current_chunk accumulator (starting from its initializer 999). -/
def foldPrio (rs : List SectionRange) : Nat :=
  rs.foldl (fun a r => min a r.priority) 999

/-- Invariant of the current_chunk accumulator of split_into_chunks: it
holds exactly the ranges rs (members, running minimum priority, text
emptiness), its running size never exceeds the budget, and an empty text
means nothing accumulated. -/
def AccInv (R : List SectionRange) (maxT : Nat) (acc : Accum) : Prop :=
  ∃ rs, (∀ r ∈ rs, r ∈ R) ∧ acc.sections = rs.map SectionRange.name ∧
    acc.priority = foldPrio rs ∧ acc.tokens ≤ maxT ∧
    (acc.text = [] ↔ rs = []) ∧ (acc.text = [] → acc.tokens = 0)

/-- Shape of a chunk produced by the split_into_chunks loop: either an
accumulator flush — a non-empty run of ranges within budget, priority
the accumulator minimum — or a sub-chunk of an oversized range — single
member, the range's priority, and within budget unless it consists of a
single paragraph whose own estimate exceeds the budget. -/
def PackGood (R : List SectionRange) (maxT : Nat) (text : List Char) (c : DChunk) : Prop :=
  (∃ rs, rs ≠ [] ∧ (∀ r ∈ rs, r ∈ R) ∧ c.sections = rs.map SectionRange.name ∧
     c.priority = some (foldPrio rs) ∧ c.tokens ≤ maxT) ∨
  (∃ r ∈ R, maxT < estimate_tokens (pySlice text r.start r.stop) ∧
     c.sections = [r.name] ∧ c.priority = some r.priority ∧
     (c.tokens ≤ maxT ∨
       ∃ para ∈ splitParas (pySlice text r.start r.stop),
         c.text = stripChars (para ++ nlnl) ∧ c.tokens = estimate_tokens para ∧
         maxT < estimate_tokens para))

/-- Shape of a chunk produced by the generate_chunks loop: its member
list comes from a non-empty run fs of input files (in order), its
priority is the priority of the last file of the run (line 421 of the
source overwrites the running priority on every iteration), and its
size estimate is within budget unless the run is one single file whose
own estimate exceeds the budget. -/
def GenGood (F : List CFile) (maxT : Nat) (c : CChunk) : Prop :=
  ∃ fs fl, fs ≠ [] ∧ (∀ f ∈ fs, f ∈ F) ∧
    c.files = fs.map (fun f => membersOfContent (fileContent f)) ∧
    fs.getLast? = some fl ∧ c.priority = fl.priority ∧
    (c.tokens ≤ maxT ∨
      ∃ f, fs = [f] ∧ c.tokens = estimate_tokens (fileContent f) ∧ maxT < c.tokens)

/-- Invariant of the running chunk of generate_chunks. -/
def GenInv (F : List CFile) (maxT : Nat) (cur : List (List Char)) (tok pr : Nat) : Prop :=
  ∃ fs, (∀ f ∈ fs, f ∈ F) ∧ cur = fs.map fileContent ∧
    (fs = [] → tok = 0) ∧
    (tok ≤ maxT ∨ ∃ f, fs = [f] ∧ tok = estimate_tokens (fileContent f) ∧ maxT < tok) ∧
    (∀ fl, fs.getLast? = some fl → pr = fl.priority)

/-!
### Library-style helper lemmas
-/

theorem concatSections_append (l₁ l₂ : List DChunk) :
    concatSections (l₁ ++ l₂) = concatSections l₁ ++ concatSections l₂ := by
  induction l₁ with
  | nil => rfl
  | cons c cs ih => simp [concatSections] at ih ⊢; simp [ih]

theorem concatFiles_append (l₁ l₂ : List CChunk) :
    concatFiles (l₁ ++ l₂) = concatFiles l₁ ++ concatFiles l₂ := by
  induction l₁ with
  | nil => rfl
  | cons c cs ih => simp [concatFiles] at ih ⊢; simp [ih]

theorem nlnl_ne_nil : nlnl ≠ [] := by decide

theorem append_nlnl_ne_nil (l : List Char) : l ++ nlnl ≠ [] := by
  simp [nlnl]

/-!
### The split_by_tokens loop invariant
-/

theorem sbtLoop_good (maxT : Nat) (name : List Char) (P : List Char → Prop) :
    ∀ (ps : List (List Char)) (curText : List Char) (curTokens : Nat)
      (chunks : List DChunk),
      (∀ p ∈ ps, P p) →
      (curText = [] → curTokens = 0) →
      (curTokens ≤ maxT ∨
        ∃ para, P para ∧ curText = para ++ nlnl ∧
          curTokens = estimate_tokens para ∧ maxT < curTokens) →
      (∀ c ∈ chunks, SbtGood maxT name P c) →
      ∀ c ∈ sbtLoop maxT name ps curText curTokens chunks, SbtGood maxT name P c := by
  intro ps
  induction ps with
  | nil =>
      intro curText curTokens chunks _ _ hst hch c hc
      rw [sbtLoop] at hc
      split at hc
      · rcases List.mem_append.mp hc with h | h
        · exact hch c h
        · rcases List.mem_singleton.mp h with rfl
          refine ⟨rfl, rfl, rfl, rfl, ?_⟩
          rcases hst with h | ⟨para, hP, hteq, htok, hlt⟩
          · exact Or.inl h
          · exact Or.inr ⟨para, hP, by rw [hteq], htok, htok ▸ hlt⟩
      · exact hch c hc
  | cons p rest ih =>
      intro curText curTokens chunks hps hemp hst hch c hc
      rw [sbtLoop] at hc
      split at hc
      next hcond =>
        refine ih (p ++ nlnl) (estimate_tokens p) _ (fun q hq => hps q (List.mem_cons_of_mem _ hq))
          (fun h => absurd h (append_nlnl_ne_nil p)) ?_ ?_ c hc
        · by_cases hle : estimate_tokens p ≤ maxT
          · exact Or.inl hle
          · exact Or.inr ⟨p, hps p (List.mem_cons_self _ _), rfl, rfl, Nat.lt_of_not_le hle⟩
        · intro d hd
          rcases List.mem_append.mp hd with h | h
          · exact hch d h
          · rcases List.mem_singleton.mp h with rfl
            refine ⟨rfl, rfl, rfl, rfl, ?_⟩
            rcases hst with h | ⟨para, hP, hteq, htok, hlt⟩
            · exact Or.inl h
            · exact Or.inr ⟨para, hP, by rw [hteq], htok, htok ▸ hlt⟩
      next hcond =>
        rw [not_and_or] at hcond
        refine ih (curText ++ p ++ nlnl) (curTokens + estimate_tokens p) _
          (fun q hq => hps q (List.mem_cons_of_mem _ hq))
          (fun h => absurd h (by simp [nlnl])) ?_ hch c hc
        by_cases hemp2 : curText = []
        · have h0 : curTokens = 0 := hemp hemp2
          subst hemp2
          by_cases hle : estimate_tokens p ≤ maxT
          · exact Or.inl (by omega)
          · exact Or.inr ⟨p, hps p (List.mem_cons_self _ _), by simp, by omega,
              by omega⟩
        · rcases hcond with h | h
          · exact Or.inl (Nat.le_of_not_lt h)
          · exact absurd (not_not.mp h) hemp2

/-- Every chunk produced by split_by_tokens has the SbtGood shape, with
paragraphs drawn from the paragraph splitting of its input text. -/
theorem split_by_tokens_good (text : List Char) (maxT : Nat) (name : List Char) :
    ∀ c ∈ split_by_tokens text maxT name,
      SbtGood maxT name (fun p => p ∈ splitParas text) c := by
  intro c hc
  exact sbtLoop_good maxT name _ (splitParas text) [] 0 []
    (fun p hp => hp) (fun _ => rfl) (Or.inl (Nat.zero_le _)) (by simp) c hc

/-!
### The split_into_chunks loop invariant
-/

theorem accToChunk_good (R : List SectionRange) (maxT : Nat) (text : List Char)
    (acc : Accum) (hinv : AccInv R maxT acc) (hne : acc.text ≠ []) :
    PackGood R maxT text (accToChunk acc) := by
  rcases hinv with ⟨rs, hsub, hsec, hpr, htok, hiff, _⟩
  refine Or.inl ⟨rs, ?_, hsub, hsec, by rw [accToChunk, hpr], htok⟩
  intro h
  exact hne (hiff.mpr h)

theorem packLoop_good (text : List Char) (maxT : Nat) (R : List SectionRange) :
    ∀ (ranges : List SectionRange) (acc : Accum) (chunks : List DChunk),
      (∀ r ∈ ranges, r ∈ R) →
      AccInv R maxT acc →
      (∀ c ∈ chunks, PackGood R maxT text c) →
      ∀ c ∈ packLoop text maxT ranges acc chunks, PackGood R maxT text c := by
  intro ranges
  induction ranges with
  | nil =>
      intro acc chunks _ hinv hch c hc
      rw [packLoop] at hc
      split at hc
      next hne =>
        rcases List.mem_append.mp hc with h | h
        · exact hch c h
        · rcases List.mem_singleton.mp h with rfl
          exact accToChunk_good R maxT text acc hinv hne
      next => exact hch c hc
  | cons r rest ih =>
      intro acc chunks hran hinv hch c hc
      have hrR : r ∈ R := hran r (List.mem_cons_self _ _)
      have hrest : ∀ q ∈ rest, q ∈ R := fun q hq => hran q (List.mem_cons_of_mem _ hq)
      rw [packLoop] at hc
      split at hc
      next hbig =>
        -- oversized section: flush accumulator, emit tagged sub-chunks
        refine ih emptyAccum _ hrest ⟨[], by simp, by simp [emptyAccum],
          by simp [emptyAccum, foldPrio], by simp [emptyAccum], by simp [emptyAccum],
          by simp [emptyAccum]⟩ ?_ c hc
        intro d hd
        rcases List.mem_append.mp hd with h | h
        · split at h
          next hne =>
            rcases List.mem_append.mp h with h' | h'
            · exact hch d h'
            · rcases List.mem_singleton.mp h' with rfl
              exact accToChunk_good R maxT text acc hinv hne
          next => exact hch d h
        · rcases List.mem_map.mp h with ⟨sc, hsc, rfl⟩
          have hg := split_by_tokens_good (pySlice text r.start r.stop) maxT r.name sc hsc
          rcases hg with ⟨hsec, hpr, _, _, hdisj⟩
          refine Or.inr ⟨r, hrR, hbig, rfl, rfl, ?_⟩
          rcases hdisj with h' | ⟨para, hp, ht, htk, hlt⟩
          · exact Or.inl h'
          · exact Or.inr ⟨para, hp, ht, htk, hlt⟩
      next hbig =>
        split at hc
        next hflush =>
          -- flush the accumulator, then start a fresh one holding r
          rcases hflush with ⟨_, hne⟩
          refine ih _ _ hrest ⟨[r], by simpa using hrR, by simp, ?_, ?_, by simp
            [nlnl], by simp [nlnl]⟩ ?_ c hc
          · simp [foldPrio]
          · simpa using Nat.le_of_not_lt hbig
          · intro d hd
            rcases List.mem_append.mp hd with h | h
            · exact hch d h
            · rcases List.mem_singleton.mp h with rfl
              exact accToChunk_good R maxT text acc hinv hne
        next hflush =>
          -- add r to the accumulator
          rcases hinv with ⟨rs, hsub, hsec, hpr, htok, hiff, hz⟩
          rw [not_and_or] at hflush
          refine ih _ _ hrest ⟨rs ++ [r], ?_, ?_, ?_, ?_, ?_, ?_⟩ hch c hc
          · intro q hq
            rcases List.mem_append.mp hq with h | h
            · exact hsub q h
            · rcases List.mem_singleton.mp h with rfl; exact hrR
          · simp [hsec]
          · simp [foldPrio, List.foldl_append, hpr]
          · by_cases hemp : acc.text = []
            · have := hz hemp
              simpa [this] using Nat.le_of_not_lt hbig
            · rcases hflush with h | h
              · simpa using Nat.le_of_not_lt h
              · exact absurd (not_not.mp h) hemp
          · simp [nlnl, hiff]
          · simp [nlnl]

/-!
### Sorting and index assignment
-/

theorem insertByPrio_perm (c : DChunk) (l : List DChunk) :
    (insertByPrio c l).Perm (c :: l) := by
  induction l with
  | nil => rfl
  | cons d ds ih =>
      rw [insertByPrio]
      split
      · exact ((ih.cons d).trans (List.Perm.swap c d ds)).symm.symm
      · exact List.Perm.refl _

theorem sortByPrio_perm (l : List DChunk) : (sortByPrio l).Perm l := by
  suffices h : ∀ (l acc : List DChunk),
      (l.foldl (fun a c => insertByPrio c a) acc).Perm (acc ++ l) by
    simpa using h l []
  intro l
  induction l with
  | nil => simp
  | cons c cs ih =>
      intro acc
      refine (ih _).trans ?_
      exact (List.Perm.append_right cs (insertByPrio_perm c acc)).trans
        List.perm_middle.symm

theorem mem_sortByPrio {c : DChunk} {l : List DChunk} :
    c ∈ sortByPrio l ↔ c ∈ l :=
  (sortByPrio_perm l).mem_iff

theorem mem_enumFrom_snd {α : Type} {x : Nat × α} :
    ∀ {n : Nat} {l : List α}, x ∈ List.enumFrom n l → x.2 ∈ l := by
  intro n l
  induction l generalizing n with
  | nil => intro h; simp at h
  | cons a as ih =>
      intro h
      rcases List.mem_cons.mp h with h | h
      · subst h; exact List.mem_cons_self _ _
      · exact List.mem_cons_of_mem _ (ih h)

/-- Membership in assignIdx: fields other than index/total come from a
member of the input, index is assigned and total is the output length. -/
theorem mem_assignIdx {c : DChunk} {l : List DChunk} (h : c ∈ assignIdx l) :
    ∃ c₀ ∈ l, c.sections = c₀.sections ∧ c.text = c₀.text ∧
      c.priority = c₀.priority ∧ c.tokens = c₀.tokens ∧
      c.index.isSome ∧ c.total = some l.length := by
  rcases List.mem_map.mp h with ⟨⟨i, c₀⟩, hmem, rfl⟩
  exact ⟨c₀, mem_enumFrom_snd hmem, rfl, rfl, rfl, rfl, rfl, rfl⟩

/-- Inserting into a list whose keys are all at most the new key appends. -/
theorem insertByPrio_append (c : DChunk) (l : List DChunk)
    (h : ∀ d ∈ l, d.priority.getD 999 ≤ c.priority.getD 999) :
    insertByPrio c l = l ++ [c] := by
  induction l with
  | nil => rfl
  | cons d ds ih =>
      rw [insertByPrio, if_pos (h d (List.mem_cons_self _ _))]
      rw [ih (fun e he => h e (List.mem_cons_of_mem _ he))]
      rfl

/-- Sorting a list whose chunks all share one priority is the identity
(Python's sort is stable). -/
theorem sortByPrio_const {p : Nat} (l : List DChunk)
    (h : ∀ c ∈ l, c.priority = some p) : sortByPrio l = l := by
  suffices haux : ∀ (l acc : List DChunk), (∀ c ∈ l, c.priority = some p) →
      (∀ d ∈ acc, d.priority = some p) →
      l.foldl (fun a c => insertByPrio c a) acc = acc ++ l by
    simpa using haux l [] h (by simp)
  intro l
  induction l with
  | nil => intro acc _ _; simp
  | cons c cs ih =>
      intro acc hl hacc
      have hins : insertByPrio c acc = acc ++ [c] := by
        refine insertByPrio_append c acc (fun d hd => ?_)
        rw [hacc d hd, hl c (List.mem_cons_self _ _)]
      rw [List.foldl_cons, hins,
        ih (acc ++ [c]) (fun e he => hl e (List.mem_cons_of_mem _ he)) ?_]
      · simp
      · intro d hd
        rcases List.mem_append.mp hd with h' | h'
        · exact hacc d h'
        · rcases List.mem_singleton.mp h' with rfl
          exact hl d (List.mem_cons_self _ _)

/-!
### The generate_chunks loop invariant
-/

theorem mkCChunk_good {F : List CFile} {maxT : Nat} {cur : List (List Char)}
    {tok pr idx : Nat} (hinv : GenInv F maxT cur tok pr) (hne : cur ≠ []) :
    GenGood F maxT (mkCChunk idx pr cur tok) := by
  rcases hinv with ⟨fs, hsub, hcur, _, hdisj, hlast⟩
  have hfs : fs ≠ [] := by
    intro h; subst h; simp at hcur; exact hne hcur
  cases hfl : fs.getLast? with
  | none => exact absurd (List.getLast?_eq_none_iff.mp hfl) hfs
  | some fl =>
      refine ⟨fs, fl, hfs, hsub, ?_, hfl, hlast fl hfl, ?_⟩
      · simp [mkCChunk, hcur, List.map_map]
      · simpa [mkCChunk] using hdisj

theorem genLoop_good (maxT : Nat) (F : List CFile) :
    ∀ (fsRest : List CFile) (cur : List (List Char)) (tok pr idx : Nat)
      (chunks : List CChunk),
      (∀ f ∈ fsRest, f ∈ F) →
      GenInv F maxT cur tok pr →
      (∀ c ∈ chunks, GenGood F maxT c) →
      ∀ c ∈ genLoop maxT fsRest cur tok pr idx chunks, GenGood F maxT c := by
  intro fsRest
  induction fsRest with
  | nil =>
      intro cur tok pr idx chunks _ hinv hch c hc
      rw [genLoop] at hc
      split at hc
      next hne =>
        rcases List.mem_append.mp hc with h | h
        · exact hch c h
        · rcases List.mem_singleton.mp h with rfl
          exact mkCChunk_good hinv hne
      next => exact hch c hc
  | cons f rest ih =>
      intro cur tok pr idx chunks hrest hinv hch c hc
      have hfF : f ∈ F := hrest f (List.mem_cons_self _ _)
      have hrest' : ∀ g ∈ rest, g ∈ F := fun g hg => hrest g (List.mem_cons_of_mem _ hg)
      rw [genLoop] at hc
      split at hc
      next hcond =>
        rcases hcond with ⟨hover, hne⟩
        refine ih _ _ _ _ _ hrest' ⟨[f], by simpa using hfF, by simp, by simp, ?_, ?_⟩
          ?_ c hc
        · by_cases hle : estimate_tokens (fileContent f) ≤ maxT
          · exact Or.inl hle
          · exact Or.inr ⟨f, rfl, rfl, Nat.lt_of_not_le hle⟩
        · intro fl hfl
          simp at hfl
          rw [hfl]
        · intro d hd
          rcases List.mem_append.mp hd with h | h
          · exact hch d h
          · rcases List.mem_singleton.mp h with rfl
            exact mkCChunk_good hinv hne
      next hcond =>
        rw [not_and_or] at hcond
        rcases hinv with ⟨fs, hsub, hcur, hz, hdisj, _⟩
        refine ih _ _ _ _ _ hrest' ⟨fs ++ [f], ?_, by simp [hcur], by simp, ?_, ?_⟩
          hch c hc
        · intro g hg
          rcases List.mem_append.mp hg with h | h
          · exact hsub g h
          · rcases List.mem_singleton.mp h with rfl; exact hfF
        · by_cases hemp : fs = []
          · subst hemp
            by_cases hle : estimate_tokens (fileContent f) ≤ maxT
            · exact Or.inl (by simpa [hz rfl] using hle)
            · exact Or.inr ⟨f, by simp, by simp [hz rfl], by
                simp only [hz rfl, Nat.zero_add]; exact Nat.lt_of_not_le hle⟩
          · rcases hcond with h | h
            · exact Or.inl (Nat.le_of_not_lt h)
            · have : cur ≠ [] := by
                rw [hcur]; simpa using hemp
              exact absurd (not_not.mp h) this
        · intro fl hfl
          simp [List.getLast?_concat] at hfl
          rw [hfl]

/-!
### Round-trip lemmas
-/

theorem concatSections_singleton (c : DChunk) : concatSections [c] = c.sections := by
  simp [concatSections]

theorem concatFiles_singleton (c : CChunk) : concatFiles [c] = c.files := by
  simp [concatFiles]

/-- When no section is oversized, the packing loop preserves the member
sequence exactly: the concatenated member lists of its output are the
already-emitted members, then the accumulator members, then the names of
the remaining ranges in input order. -/
theorem packLoop_concat (text : List Char) (maxT : Nat) :
    ∀ (ranges : List SectionRange) (acc : Accum) (chunks : List DChunk),
      (∀ r ∈ ranges, estimate_tokens (pySlice text r.start r.stop) ≤ maxT) →
      (acc.text = [] → acc.sections = []) →
      concatSections (packLoop text maxT ranges acc chunks) =
        concatSections chunks ++ acc.sections ++ ranges.map SectionRange.name := by
  intro ranges
  induction ranges with
  | nil =>
      intro acc chunks _ hacc
      rw [packLoop]
      split
      next =>
        rw [concatSections_append, concatSections_singleton]
        simp [accToChunk]
      next hne => simp [hacc (not_not.mp hne)]
  | cons r rest ih =>
      intro acc chunks hsmall hacc
      have hr : estimate_tokens (pySlice text r.start r.stop) ≤ maxT :=
        hsmall r (List.mem_cons_self _ _)
      have hrest : ∀ q ∈ rest, estimate_tokens (pySlice text q.start q.stop) ≤ maxT :=
        fun q hq => hsmall q (List.mem_cons_of_mem _ hq)
      rw [packLoop, if_neg (Nat.not_lt.mpr hr)]
      split
      next hflush =>
        rw [ih _ _ hrest (by simp [nlnl]), concatSections_append, concatSections_singleton]
        simp [accToChunk]
      next hflush =>
        rw [ih _ _ hrest (by simp [nlnl])]
        simp

/-- The generate_chunks loop preserves the member sequence exactly. -/
theorem genLoop_concat (maxT : Nat) :
    ∀ (fs : List CFile) (cur : List (List Char)) (tok pr idx : Nat)
      (chunks : List CChunk),
      concatFiles (genLoop maxT fs cur tok pr idx chunks) =
        concatFiles chunks ++ cur.map membersOfContent ++
          fs.map (fun f => membersOfContent (fileContent f)) := by
  intro fs
  induction fs with
  | nil =>
      intro cur tok pr idx chunks
      rw [genLoop]
      split
      next =>
        rw [concatFiles_append, concatFiles_singleton]
        simp [mkCChunk]
      next hne => simp [not_not.mp hne, concatFiles]
  | cons f rest ih =>
      intro cur tok pr idx chunks
      rw [genLoop]
      split
      next =>
        rw [ih, concatFiles_append, concatFiles_singleton]
        simp [mkCChunk]
      next =>
        rw [ih]
        simp [mkCChunk]

theorem all_ne_nl_header : ∀ c ∈ "# File: ".data, c ≠ '\n' := by decide

theorem takeWhile_append_all {p : Char → Bool} :
    ∀ (l₁ l₂ : List Char), (∀ c ∈ l₁, p c = true) →
      (l₁ ++ l₂).takeWhile p = l₁ ++ l₂.takeWhile p := by
  intro l₁
  induction l₁ with
  | nil => intro l₂ _; rfl
  | cons c cs ih =>
      intro l₂ h
      rw [List.cons_append, List.takeWhile_cons_of_pos (h c (List.mem_cons_self _ _)),
        ih l₂ (fun d hd => h d (List.mem_cons_of_mem _ hd))]
      simp

/-- The member name recorded for a file's content string is its path with
all file markers deleted (exactly the path when it contains none),
provided the path has no newline. -/
theorem membersOfContent_fileContent (f : CFile) (h : '\n' ∉ f.path) :
    membersOfContent (fileContent f) = stripFileTag f.path := by
  have h8 : ∀ c ∈ "# File: ".data, (fun ch => ch != '\n') c = true := by decide
  have hpath : ∀ c ∈ f.path, (fun ch => ch != '\n') c = true := by
    intro c hc
    simp only [bne_iff_ne, ne_eq, decide_eq_true_eq]
    intro hceq; subst hceq; exact h hc
  have : fileContent f = "# File: ".data ++ (f.path ++
      ('\n' :: ("# Priority: P".data ++ natChars f.priority ++ "\n# Lines: ".data ++
        natChars f.total_lines ++ "\n\n".data ++ f.source))) := by
    simp [fileContent]
  rw [membersOfContent, this, takeWhile_append_all _ _ h8, takeWhile_append_all _ _ hpath]
  simp only [List.takeWhile_cons]
  norm_num
  rfl

theorem concatSections_eq_flatMap (l : List DChunk) :
    concatSections l = l.flatMap DChunk.sections := by
  induction l with
  | nil => rfl
  | cons c cs ih => simp [concatSections] at ih ⊢; simp [ih]

theorem concatSections_perm {l₁ l₂ : List DChunk} (h : l₁.Perm l₂) :
    (concatSections l₁).Perm (concatSections l₂) := by
  rw [concatSections_eq_flatMap, concatSections_eq_flatMap]
  exact h.flatMap_right _

theorem concatSections_assignIdx (l : List DChunk) :
    concatSections (assignIdx l) = concatSections l := by
  suffices h : ∀ (l' : List DChunk) (n : Nat) (t : Nat),
      concatSections ((List.enumFrom n l').map
        (fun ic => { ic.2 with index := some ic.1, total := some t })) =
        concatSections l' by
    simpa [assignIdx, List.enum] using h l 0 l.length
  intro l'
  induction l' with
  | nil => intro n t; rfl
  | cons c cs ih =>
      intro n t
      rw [List.enumFrom, List.map_cons]
      show DChunk.sections _ ++ concatSections _ = c.sections ++ concatSections cs
      rw [ih]

/-!
### Priorities and ranges
-/

theorem rangePriority_le (normalized : List Char) : rangePriority normalized ≤ 4 := by
  rw [rangePriority]
  split
  next kv hkv =>
    have hmem := List.mem_of_find?_eq_some hkv
    have : ∀ kv ∈ SECTION_PRIORITY, kv.2 ≤ 4 := by decide
    exact this kv hmem
  next => decide

theorem buildRanges_priority_le (textLen : Nat) :
    ∀ (ss : List (Nat × List Char × List Char)) (r : SectionRange),
      r ∈ buildRanges textLen ss → r.priority ≤ 4 := by
  intro ss
  induction ss with
  | nil => intro r h; simp [buildRanges] at h
  | cons s rest ih =>
      intro r h
      rcases s with ⟨a, b, c⟩
      rw [buildRanges] at h
      rcases List.mem_cons.mp h with h | h
      · subst h; exact rangePriority_le c
      · exact ih r h

theorem buildRanges_names (textLen : Nat) :
    ∀ (ss : List (Nat × List Char × List Char)),
      (buildRanges textLen ss).map SectionRange.name = ss.map (fun s => s.2.1) := by
  intro ss
  induction ss with
  | nil => rfl
  | cons s rest ih =>
      rcases s with ⟨a, b, c⟩
      rw [buildRanges, List.map_cons, List.map_cons, ih]

theorem buildRanges_start_mem (textLen : Nat) :
    ∀ (ss : List (Nat × List Char × List Char)) (r : SectionRange),
      r ∈ buildRanges textLen ss → ∃ s ∈ ss, r.start = s.1 := by
  intro ss
  induction ss with
  | nil => intro r h; simp [buildRanges] at h
  | cons s rest ih =>
      intro r h
      rcases s with ⟨a, b, c⟩
      rw [buildRanges] at h
      rcases List.mem_cons.mp h with h | h
      · subst h; exact ⟨(a, b, c), List.mem_cons_self _ _, rfl⟩
      · rcases ih r h with ⟨s', hs', he⟩
        exact ⟨s', List.mem_cons_of_mem _ hs', he⟩

/-- The accumulator's running minimum (initialized at 999) is the true
minimum of the member priorities whenever they are all at most 4 —
which holds for every priority drawn from the section table. -/
theorem foldPrio_eq_min (rs : List SectionRange) (hne : rs ≠ [])
    (hle : ∀ r ∈ rs, r.priority ≤ 4) :
    (rs.map SectionRange.priority).min? = some (foldPrio rs) := by
  rcases rs with _ | ⟨r, rest⟩
  · exact absurd rfl hne
  · show some ((rest.map SectionRange.priority).foldl min r.priority) =
      some (foldPrio (r :: rest))
    rw [foldPrio, List.foldl_cons]
    have hmin : min 999 r.priority = r.priority :=
      Nat.min_eq_right (Nat.le_trans (hle r (List.mem_cons_self _ _)) (by norm_num))
    rw [hmin, List.foldl_map]

/-!
### identify_sections characterization
-/

/-- Every recorded section starts inside the text, records exactly the
stripped line at its start position, and that line is non-empty and at
most 100 characters long. -/
theorem identify_sections_mem {m : List Char → Bool} {text : List Char}
    {i : Nat} {nm norm : List Char}
    (h : (i, nm, norm) ∈ identify_sections m text) :
    i < text.length ∧ nm = stripChars (lineAt text i) ∧
      norm = normalizeLine nm ∧ nm ≠ [] ∧ nm.length ≤ 100 := by
  rcases List.mem_filterMap.mp h with ⟨j, hj, heq⟩
  have hjlt : j < text.length := List.mem_range.mp hj
  by_cases h1 : j ≠ 0 ∧ text[j-1]? ≠ some '\n'
  · rw [if_pos h1] at heq; exact absurd heq (by simp)
  · rw [if_neg h1] at heq
    by_cases h2 : stripChars (lineAt text j) = [] ∨ (stripChars (lineAt text j)).length > 100
    · rw [if_pos h2] at heq; exact absurd heq (by simp)
    · rw [if_neg h2] at heq
      rw [not_or] at h2
      by_cases h3 : m (stripChars (lineAt text j))
      · rw [if_pos h3] at heq
        have heq' : (j, stripChars (lineAt text j),
            normalizeLine (stripChars (lineAt text j))) = (i, nm, norm) :=
          Option.some.inj heq
        obtain ⟨rfl, rfl, rfl⟩ := Prod.mk.injEq .. ▸ (by
          simpa using heq' : j = i ∧ stripChars (lineAt text j) = nm ∧
            normalizeLine (stripChars (lineAt text j)) = norm)
        exact ⟨hjlt, rfl, rfl, h2.1, Nat.le_of_not_lt h2.2⟩
      · rw [if_neg h3] at heq; exact absurd heq (by simp)

/-- The recorded section start positions are strictly increasing. -/
theorem identify_sections_pairwise (m : List Char → Bool) (text : List Char) :
    (identify_sections m text).Pairwise (fun a b => a.1 < b.1) := by
  rw [identify_sections, List.pairwise_filterMap]
  refine (List.pairwise_lt_range text.length).imp_of_mem ?_
  intro a b _ _ hab x hx y hy
  have hxa : x.1 = a := by
    by_cases h1 : a ≠ 0 ∧ text[a-1]? ≠ some '\n'
    · rw [if_pos h1] at hx; simp at hx
    · rw [if_neg h1] at hx
      split at hx
      · simp at hx
      · split at hx
        · simp at hx
          rw [← hx]
        · simp at hx
  have hyb : y.1 = b := by
    by_cases h1 : b ≠ 0 ∧ text[b-1]? ≠ some '\n'
    · rw [if_pos h1] at hy; simp at hy
    · rw [if_neg h1] at hy
      split at hy
      · simp at hy
      · split at hy
        · simp at hy
          rw [← hy]
        · simp at hy
  rw [hxa, hyb]
  exact hab

/-!
### Invariance in the text before the first section
-/

theorem drop_pre_append {pre suf t : List Char} {p a : Nat}
    (hlen : pre.length = p) (hsuf : suf = t.drop p) (ha : p ≤ a) :
    (pre ++ suf).drop a = t.drop a := by
  have : a = pre.length + (a - p) := by omega
  rw [this, List.drop_append, hsuf, List.drop_drop]
  congr 1
  omega

theorem pySlice_pre_append {pre t : List Char} {p a b : Nat}
    (hlen : pre.length = p) (ha : p ≤ a) :
    pySlice (pre ++ t.drop p) a b = pySlice t a b := by
  rw [pySlice, pySlice, drop_pre_append hlen rfl ha]

/-- The packing loop reads the text only through the slices of its
ranges, so texts agreeing on all those slices pack identically. -/
theorem packLoop_text_congr (t₁ t₂ : List Char) (maxT : Nat) :
    ∀ (ranges : List SectionRange) (acc : Accum) (chunks : List DChunk),
      (∀ r ∈ ranges, pySlice t₁ r.start r.stop = pySlice t₂ r.start r.stop) →
      packLoop t₁ maxT ranges acc chunks = packLoop t₂ maxT ranges acc chunks := by
  intro ranges
  induction ranges with
  | nil => intro acc chunks _; rw [packLoop, packLoop]
  | cons r rest ih =>
      intro acc chunks hs
      have hr : pySlice t₁ r.start r.stop = pySlice t₂ r.start r.stop :=
        hs r (List.mem_cons_self _ _)
      have hrest : ∀ q ∈ rest, pySlice t₁ q.start q.stop = pySlice t₂ q.start q.stop :=
        fun q hq => hs q (List.mem_cons_of_mem _ hq)
      rw [packLoop, packLoop, hr]
      split
      · rw [ih _ _ hrest]
      · split
        · rw [ih _ _ hrest]
        · rw [ih _ _ hrest]

/-!
### save_chunks success
-/

theorem assignIdx_index_total {c : DChunk} {l : List DChunk} (h : c ∈ assignIdx l) :
    c.index.isSome ∧ c.total.isSome := by
  rcases List.mem_map.mp h with ⟨⟨i, c₀⟩, _, rfl⟩
  exact ⟨rfl, rfl⟩

theorem saveChunksGo_isSome (base : List Char) :
    ∀ (cs : List DChunk), (∀ c ∈ cs, c.index.isSome ∧ c.total.isSome) →
      (saveChunksGo base cs).isSome := by
  intro cs
  induction cs with
  | nil => intro _; rfl
  | cons c rest ih =>
      intro h
      obtain ⟨hidx, htot⟩ := h c (List.mem_cons_self _ _)
      rw [saveChunksGo]
      rcases hi : c.index with _ | i
      · rw [hi] at hidx; simp at hidx
      · rcases ht : c.total with _ | t
        · rw [ht] at htot; simp at htot
        · have := ih (fun d hd => h d (List.mem_cons_of_mem _ hd))
          rcases ho : saveChunksGo base rest with _ | es
          · rw [ho] at this; simp at this
          · simp [ho]

/-!
### Symbolic evaluation helpers for concrete scenarios
-/

theorem splitParas_no_nl : ∀ (l : List Char), (∀ c ∈ l, c ≠ '\n') →
    splitParas l = [l] := by
  intro l
  induction l with
  | nil => intro _; rfl
  | cons c cs ih =>
      intro h
      have hc : c ≠ '\n' := h c (List.mem_cons_self _ _)
      rw [splitParas.eq_def]
      split
      next heq => rw [List.cons.injEq] at heq; exact absurd heq.1 hc
      next _ c' rest' _ heq2 =>
        rw [List.cons.injEq] at heq2
        obtain ⟨rfl, rfl⟩ := heq2
        rw [ih (fun d hd => h d (List.mem_cons_of_mem _ hd))]
      next heq2 => simp at heq2

theorem splitParas_append : ∀ (l rest : List Char), (∀ c ∈ l, c ≠ '\n') →
    splitParas (l ++ nlnl ++ rest) = l :: splitParas rest := by
  intro l
  induction l with
  | nil =>
      intro rest _
      show splitParas ('\n' :: '\n' :: rest) = [] :: splitParas rest
      rw [splitParas]
  | cons c cs ih =>
      intro rest h
      have hc : c ≠ '\n' := h c (List.mem_cons_self _ _)
      show splitParas (c :: (cs ++ nlnl ++ rest)) = (c :: cs) :: splitParas rest
      rw [splitParas.eq_def]
      split
      next heq => rw [List.cons.injEq] at heq; exact absurd heq.1 hc
      next _ c' rest' _ heq2 =>
        rw [List.cons.injEq] at heq2
        obtain ⟨rfl, rfl⟩ := heq2
        rw [ih rest (fun d hd => h d (List.mem_cons_of_mem _ hd))]
      next heq2 => simp at heq2

theorem dropWhile_all_neg {p : Char → Bool} :
    ∀ (l : List Char), (∀ c ∈ l, p c = false) → l.dropWhile p = l := by
  intro l h
  cases l with
  | nil => rfl
  | cons c cs =>
      rw [List.dropWhile_cons, h c (List.mem_cons_self _ _)]
      simp

theorem stripChars_append_nlnl (l : List Char) (hne : l ≠ [])
    (h : ∀ c ∈ l, isPySpace c = false) : stripChars (l ++ nlnl) = l := by
  rcases l with _ | ⟨x, xs⟩
  · exact absurd rfl hne
  · have hx : isPySpace x = false := h x (List.mem_cons_self _ _)
    have hall : ∀ c ∈ xs.reverse ++ [x], isPySpace c = false := by
      intro c hc
      rcases List.mem_append.mp hc with h' | h'
      · exact h c (List.mem_cons_of_mem _ (List.mem_reverse.mp h'))
      · rcases List.mem_singleton.mp h' with rfl
        exact hx
    rw [stripChars, List.cons_append, List.dropWhile_cons, hx]
    simp only [Bool.false_eq_true, if_false]
    have hrev : ((x :: (xs ++ nlnl)).reverse : List Char) =
        '\n' :: '\n' :: (xs.reverse ++ [x]) := by
      simp [nlnl]
    rw [hrev, List.dropWhile_cons, List.dropWhile_cons]
    simp only [show isPySpace '\n' = true from rfl, if_true]
    rw [dropWhile_all_neg _ hall]
    simp

theorem pySlice_full (s : List Char) : pySlice s 0 s.length = s := by
  simp [pySlice]

/-!
### Scenario evaluation: one oversized unit of estimate 501 under budget
200 whose paragraph boundaries give pieces of estimates [200, 200, 100]
-/

theorem scenario500_eval :
    split_into_chunks
        (List.replicate 800 'a' ++ nlnl ++ (List.replicate 800 'b' ++ nlnl ++ List.replicate 400 'c'))
        [(0, "Methods".data, "method".data)] 200 =
      [⟨["Methods".data], List.replicate 800 'a', some 1, 200, some 0, some 3⟩,
       ⟨["Methods".data], List.replicate 800 'b', some 1, 200, some 1, some 3⟩,
       ⟨["Methods".data], List.replicate 400 'c', some 1, 100, some 2, some 3⟩] := by
  have hnoa : ∀ c ∈ List.replicate 800 'a', c ≠ '\n' := by
    intro c hc; rw [List.eq_of_mem_replicate hc]; decide
  have hnob : ∀ c ∈ List.replicate 800 'b', c ≠ '\n' := by
    intro c hc; rw [List.eq_of_mem_replicate hc]; decide
  have hnoc : ∀ c ∈ List.replicate 400 'c', c ≠ '\n' := by
    intro c hc; rw [List.eq_of_mem_replicate hc]; decide
  have hsa : stripChars (List.replicate 800 'a' ++ nlnl) = List.replicate 800 'a' := by
    refine stripChars_append_nlnl _ (by simp only [ne_eq, List.replicate_eq_nil_iff]; norm_num) ?_
    intro c hc; rw [List.eq_of_mem_replicate hc]; rfl
  have hsb : stripChars (List.replicate 800 'b' ++ nlnl) = List.replicate 800 'b' := by
    refine stripChars_append_nlnl _ (by simp only [ne_eq, List.replicate_eq_nil_iff]; norm_num) ?_
    intro c hc; rw [List.eq_of_mem_replicate hc]; rfl
  have hsc : stripChars (List.replicate 400 'c' ++ nlnl) = List.replicate 400 'c' := by
    refine stripChars_append_nlnl _ (by simp only [ne_eq, List.replicate_eq_nil_iff]; norm_num) ?_
    intro c hc; rw [List.eq_of_mem_replicate hc]; rfl
  have hsp : splitParas (List.replicate 800 'a' ++ nlnl ++
      (List.replicate 800 'b' ++ nlnl ++ List.replicate 400 'c')) =
      [List.replicate 800 'a', List.replicate 800 'b', List.replicate 400 'c'] := by
    rw [splitParas_append _ _ hnoa, splitParas_append _ _ hnob, splitParas_no_nl _ hnoc]
  have hea : estimate_tokens (List.replicate 800 'a') = 200 := by
    simp only [estimate_tokens, List.length_replicate]
  have heb : estimate_tokens (List.replicate 800 'b') = 200 := by
    simp only [estimate_tokens, List.length_replicate]
  have hec : estimate_tokens (List.replicate 400 'c') = 100 := by
    simp only [estimate_tokens, List.length_replicate]
  have hsbt : split_by_tokens (List.replicate 800 'a' ++ nlnl ++
      (List.replicate 800 'b' ++ nlnl ++ List.replicate 400 'c')) 200 "Methods".data =
      [⟨["Methods".data], List.replicate 800 'a', none, 200, none, none⟩,
       ⟨["Methods".data], List.replicate 800 'b', none, 200, none, none⟩,
       ⟨["Methods".data], List.replicate 400 'c', none, 100, none, none⟩] := by
    rw [split_by_tokens, hsp]
    rw [sbtLoop, if_neg (fun h => h.2 rfl)]
    rw [sbtLoop, if_pos ⟨by rw [hea, heb]; norm_num, append_nlnl_ne_nil _⟩]
    rw [sbtLoop, if_pos ⟨by rw [heb, hec]; norm_num, append_nlnl_ne_nil _⟩]
    rw [sbtLoop, if_pos (by rw [hsc]; simp only [ne_eq, List.replicate_eq_nil_iff]; norm_num)]
    simp only [List.nil_append, Nat.zero_add, hea, heb, hec, hsa, hsb, hsc]
    rfl
  have hlen2004 : (List.replicate 800 'a' ++ nlnl ++
      (List.replicate 800 'b' ++ nlnl ++ List.replicate 400 'c')).length = 2004 := by
    simp only [List.length_append, List.length_replicate, nlnl, List.length_cons,
      List.length_nil]
  have hbig : 200 < estimate_tokens (pySlice (List.replicate 800 'a' ++ nlnl ++
      (List.replicate 800 'b' ++ nlnl ++ List.replicate 400 'c')) 0
      (List.replicate 800 'a' ++ nlnl ++
      (List.replicate 800 'b' ++ nlnl ++ List.replicate 400 'c')).length) := by
    rw [pySlice_full, estimate_tokens, hlen2004]
    norm_num
  have hrp : rangePriority "method".data = 1 := by decide
  rw [split_into_chunks, if_neg (by decide)]
  rw [show buildRanges (List.replicate 800 'a' ++ nlnl ++
      (List.replicate 800 'b' ++ nlnl ++ List.replicate 400 'c')).length
      [(0, "Methods".data, "method".data)] =
      [⟨0, (List.replicate 800 'a' ++ nlnl ++
        (List.replicate 800 'b' ++ nlnl ++ List.replicate 400 'c')).length,
        "Methods".data, "method".data, 1⟩] from by
    rw [buildRanges, buildRanges, hrp]; rfl]
  rw [packLoop, if_pos hbig]
  simp only [if_neg (show ¬((emptyAccum.text ≠ [])) from fun h => h rfl)]
  rw [packLoop]
  simp only [if_neg (show ¬((emptyAccum.text ≠ [])) from fun h => h rfl)]
  rw [show pySlice (List.replicate 800 'a' ++ nlnl ++
      (List.replicate 800 'b' ++ nlnl ++ List.replicate 400 'c')) 0
      (List.replicate 800 'a' ++ nlnl ++
      (List.replicate 800 'b' ++ nlnl ++ List.replicate 400 'c')).length =
      List.replicate 800 'a' ++ nlnl ++
      (List.replicate 800 'b' ++ nlnl ++ List.replicate 400 'c') from pySlice_full _]
  rw [hsbt]
  rw [List.map_cons, List.map_cons, List.map_cons, List.map_nil]
  simp only [tagSub]
  rw [sortByPrio_const _ (by
    intro c hc
    rcases List.mem_cons.mp hc with h | hc2
    · subst h; rfl
    · rcases List.mem_cons.mp hc2 with h | hc3
      · subst h; rfl
      · rcases List.mem_cons.mp hc3 with h | hc4
        · subst h; rfl
        · exact absurd hc4 (List.not_mem_nil c))]
  rw [assignIdx]
  rfl

/-!
### Claim theorems
-/

/-- Claim C4, counterexample: the file-tier classifier get_priority maps
"random_util.py" to the default tier 99, not to tier 3 as the claim
states: no tier-3 pattern matches it — in particular the pattern
requiring the suffix "_utils.py" (plural) does not match "_util.py". -/
theorem claim_C4_counterexample :
    get_priority "random_util.py".data = 99 ∧ (99 : Nat) ≠ 3 :=
  ⟨by decide, by decide⟩

/-- Claim C4, amended: under the fixed tier pattern table, get_priority
maps "modeling_bert.py" to 0, "config.py" to 1, and "random_util.py" to
the default lowest tier 99 (it matches no pattern). -/
theorem claim_C4_amended :
    get_priority "modeling_bert.py".data = 0 ∧
      get_priority "config.py".data = 1 ∧
      get_priority "random_util.py".data = 99 :=
  ⟨by decide, by decide, by decide⟩

/-- Claim C5: on a document in which zero section headings are detected,
the run does not complete: split_into_chunks returns the raw
split_by_tokens chunks, which carry no index or total keys, and
save_chunks then raises KeyError on chunk['index'] (modelled as none).
This evaluates the code at the failing input: the five-character document
"hello" with a matcher that accepts nothing, budget 3500. -/
theorem claim_C5_no_sections_keyerror :
    save_chunks "paper".data
      (split_into_chunks "hello".data
        (identify_sections (fun _ => false) "hello".data) 3500) = none := by
  decide

/-- Claim C8, counterexample: in analyze_code, zero scanned inputs is
reported as a failure — main prints an error and returns exit code 1,
producing no manifest — contrary to the claim that zero inputs is not an
error and still yields a manifest. -/
theorem claim_C8_counterexample :
    analyzeCodeMain [] 4000 = Except.error 1 := rfl

/-- Claim C8, amended: in chunk_paper an empty unit list is not an
error — an empty document yields zero chunks, and save_chunks on an
empty chunk list yields a manifest recording zero total chunks with an
empty chunk descriptor list; an empty file list likewise yields zero
chunks in generate_chunks; but analyze_code's main treats zero scanned
files as a failure (exit code 1) and produces no manifest. -/
theorem claim_C8_amended :
    (∀ maxT : Nat, split_into_chunks [] [] maxT = []) ∧
      (∀ maxT : Nat, generate_chunks maxT [] = []) ∧
      (∀ base : List Char, save_chunks base [] = some ⟨base, 0, []⟩) ∧
      (∀ maxT : Nat, analyzeCodeMain [] maxT = Except.error 1) := by
  refine ⟨?_, ?_, fun base => rfl, fun maxT => rfl⟩
  · intro maxT
    rw [split_into_chunks,
      if_pos (show ([] : List (Nat × List Char × List Char)).isEmpty = true from rfl),
      split_by_tokens]
    rw [show splitParas [] = [[]] from rfl]
    rw [sbtLoop, if_neg (fun h => h.2 rfl)]
    rw [sbtLoop, if_neg (show ¬(stripChars ([] ++ [] ++ nlnl) ≠ []) from
      fun h => h (by decide))]
  · intro maxT
    rw [generate_chunks, genLoop, if_neg (fun h => h rfl)]

/-- Claim C2, counterexample: packing two sections of priorities 2 and 0
(sizes 10 and 10, budget 10) yields two chunks which the final sort by
priority reorders, so concatenating chunk members gives the units in the
order [Abstract, Background] instead of the input order
[Background, Abstract]: cross-chunk unit order is not preserved. -/
theorem claim_C2_counterexample :
    concatSections (split_into_chunks (List.replicate 40 'b' ++ List.replicate 40 'a')
        [(0, "Background".data, "background".data), (40, "Abstract".data, "abstract".data)]
        10) =
      ["Abstract".data, "Background".data] ∧
      (["Abstract".data, "Background".data] : List (List Char)) ≠
        ["Background".data, "Abstract".data] :=
  ⟨by decide, by decide⟩

/-- Claim C3, counterexample: generate_chunks packs two files of
priorities 0 and 1 into one chunk and assigns the chunk priority 1 — the
priority of the last member — not the minimum member tier 0 as the claim
states for both packers. -/
theorem claim_C3_counterexample :
    (generate_chunks 4000 [⟨"model.py".data, 0, 1, "x".data⟩,
        ⟨"config.py".data, 1, 1, "y".data⟩]).map CChunk.priority = [1] ∧
      (generate_chunks 4000 [⟨"model.py".data, 0, 1, "x".data⟩,
        ⟨"config.py".data, 1, 1, "y".data⟩]).map CChunk.files =
        [["model.py".data, "config.py".data]] ∧
      min 0 1 = 0 ∧ (1 : Nat) ≠ 0 :=
  ⟨by decide, by decide, by decide, by decide⟩

/-- Claim C6, counterexample: a non-positive budget is not rejected.
With budget 0 on a one-section document of two paragraphs the pipeline
proceeds, packs each paragraph into its own chunk (two chunks), and
save_chunks succeeds — no fatal configuration error is raised. -/
theorem claim_C6_counterexample :
    (split_into_chunks "aaaa\n\nbbbb".data
        [(0, "Abstract".data, "abstract".data)] 0).length = 2 ∧
      (save_chunks "p".data (split_into_chunks "aaaa\n\nbbbb".data
        [(0, "Abstract".data, "abstract".data)] 0)).isSome = true :=
  ⟨by decide, by decide⟩

/-- Claim C6, amended: the budget is never validated — for every budget,
including 0, every document with at least one detected section is packed
and saved successfully (chunks receive index and total, so save_chunks
produces a manifest); no configuration error path exists. -/
theorem claim_C6_amended (text base : List Char)
    (sections : List (Nat × List Char × List Char)) (maxT : Nat)
    (hne : sections ≠ []) :
    (save_chunks base (split_into_chunks text sections maxT)).isSome = true := by
  rw [split_into_chunks, if_neg (by
    intro h
    exact hne (List.isEmpty_iff.mp h))]
  rw [save_chunks]
  have h := saveChunksGo_isSome base
    (assignIdx (sortByPrio (packLoop text maxT (buildRanges text.length sections)
      emptyAccum [])))
    (fun c hc => assignIdx_index_total hc)
  rcases ho : saveChunksGo base (assignIdx (sortByPrio
      (packLoop text maxT (buildRanges text.length sections) emptyAccum []))) with _ | es
  · rw [ho] at h; simp at h
  · rfl

-- Witness for claim_C6_amended at a concrete input.
theorem claim_C6_witness :
    (save_chunks "b".data (split_into_chunks "xxxx".data
      [(0, "Intro".data, "introduction".data)] 0)).isSome = true :=
  claim_C6_amended "xxxx".data "b".data [(0, "Intro".data, "introduction".data)] 0
    (by decide)

set_option maxRecDepth 4000 in
/-- Claim C9: a line whose stripped length exceeds the fixed cap of 100
characters is never classified as a section heading, whatever the
heading matcher accepts (so in particular even if the line starts with a
recognized keyword): every recorded section's name is non-empty and at
most 100 characters; and a 150-character line accepted by a matcher that
accepts everything still opens no section. -/
theorem claim_C9_heading_cap :
    (∀ (m : List Char → Bool) (text : List Char) (i : Nat) (nm norm : List Char),
      (i, nm, norm) ∈ identify_sections m text → nm ≠ [] ∧ nm.length ≤ 100) ∧
      identify_sections (fun _ => true) (List.replicate 150 'A') = [] := by
  constructor
  · intro m text i nm norm h
    obtain ⟨_, _, _, hne, hle⟩ := identify_sections_mem h
    exact ⟨hne, hle⟩
  · decide

-- Witness for claim_C9_heading_cap at a concrete detected section.
theorem claim_C9_witness :
    ((0, "Hi".data, "hi".data) ∈ identify_sections (fun _ => true) "Hi".data) ∧
      ("Hi".data ≠ [] ∧ ("Hi".data).length ≤ 100) :=
  ⟨by decide, claim_C9_heading_cap.1 (fun _ => true) "Hi".data 0 "Hi".data "hi".data
    (by decide)⟩

/-- Claim C10: when at least one section heading is detected, the text
preceding the first detected heading contributes to no produced chunk:
replacing the prefix of the document before the first heading's start
position by any other text of the same length leaves the output of
split_into_chunks unchanged, because section ranges begin at the first
heading's start offset and chunks are built exclusively from the
section-range slices. -/
theorem claim_C10_preamble_invariant (m : List Char → Bool) (t pre : List Char)
    (maxT : Nat) (s0 : Nat × List Char × List Char)
    (rest : List (Nat × List Char × List Char))
    (hss : identify_sections m t = s0 :: rest)
    (hlen : pre.length = s0.1) :
    split_into_chunks (pre ++ t.drop s0.1) (identify_sections m t) maxT =
      split_into_chunks t (identify_sections m t) maxT := by
  have hmem0 : (s0.1, s0.2.1, s0.2.2) ∈ identify_sections m t := by
    rw [hss]; exact List.mem_cons_self _ _
  have h0lt : s0.1 < t.length := (identify_sections_mem hmem0).1
  have hlen' : (pre ++ t.drop s0.1).length = t.length := by
    rw [List.length_append, hlen, List.length_drop]
    omega
  have hstarts : ∀ s ∈ identify_sections m t, s0.1 ≤ s.1 := by
    intro s hs
    rw [hss] at hs
    rcases List.mem_cons.mp hs with h | h
    · subst h; exact Nat.le_refl _
    · have hp := identify_sections_pairwise m t
      rw [hss] at hp
      exact Nat.le_of_lt ((List.pairwise_cons.mp hp).1 s h)
  rw [split_into_chunks, split_into_chunks]
  rcases hemp : (identify_sections m t).isEmpty with _ | _
  · rw [if_neg (by simp), if_neg (by simp)]
    rw [hlen']
    refine congrArg assignIdx (congrArg sortByPrio ?_)
    refine packLoop_text_congr _ _ maxT _ _ _ ?_
    intro r hr
    rcases buildRanges_start_mem t.length (identify_sections m t) r hr with ⟨s, hs, heq⟩
    refine pySlice_pre_append hlen ?_
    rw [heq]
    exact hstarts s hs
  · rw [hss] at hemp; simp at hemp

-- Witness for claim_C10_preamble_invariant at a concrete document whose
-- first heading starts at position 3.
theorem claim_C10_witness :
    split_into_chunks ("yyy".data ++ "xx\nAbstract\nbody".data.drop 3)
        (identify_sections (fun l => l == "Abstract".data) "xx\nAbstract\nbody".data) 3500 =
      split_into_chunks "xx\nAbstract\nbody".data
        (identify_sections (fun l => l == "Abstract".data) "xx\nAbstract\nbody".data) 3500 :=
  claim_C10_preamble_invariant (fun l => l == "Abstract".data) "xx\nAbstract\nbody".data
    "yyy".data 3500 (3, "Abstract".data, "abstract".data) [] (by decide) (by decide)

/-- Claim C1: every chunk produced by either packer has a size estimate
at most the budget, except a chunk that consists of a single indivisible
piece whose own estimate exceeds the budget — in chunk_paper a chunk
holding exactly one paragraph (its text is that stripped paragraph and
its estimate is that paragraph's estimate), in analyze_code a chunk
holding exactly one file. -/
theorem claim_C1_chunk_size_bounded :
    (∀ (text : List Char) (sections : List (Nat × List Char × List Char)) (maxT : Nat),
      ∀ c ∈ split_into_chunks text sections maxT,
        c.tokens ≤ maxT ∨
          (c.sections.length = 1 ∧ maxT < c.tokens ∧
            ∃ para, c.text = stripChars (para ++ nlnl) ∧
              c.tokens = estimate_tokens para)) ∧
    (∀ (files : List CFile) (maxT : Nat),
      ∀ c ∈ generate_chunks maxT files,
        c.tokens ≤ maxT ∨
          (c.files.length = 1 ∧ maxT < c.tokens ∧
            ∃ f ∈ files, c.tokens = estimate_tokens (fileContent f))) := by
  constructor
  · intro text sections maxT c hc
    rw [split_into_chunks] at hc
    split at hc
    · -- no-sections path: raw split_by_tokens chunks
      obtain ⟨hsec, _, _, _, hdisj⟩ :=
        split_by_tokens_good text maxT "content".data c hc
      rcases hdisj with h | ⟨para, _, ht, htk, hlt⟩
      · exact Or.inl h
      · exact Or.inr ⟨by rw [hsec]; rfl, htk ▸ hlt, para, ht, htk⟩
    · -- sections path
      obtain ⟨c₀, hc₀, hsec, htext, _, htok, _, _⟩ := mem_assignIdx hc
      have hc₀' : c₀ ∈ packLoop text maxT (buildRanges text.length sections)
          emptyAccum [] := mem_sortByPrio.mp hc₀
      have hg := packLoop_good text maxT (buildRanges text.length sections)
        (buildRanges text.length sections) emptyAccum [] (fun r h => h)
        ⟨[], by simp, by simp [emptyAccum], by simp [emptyAccum, foldPrio],
          by simp [emptyAccum], by simp [emptyAccum], by simp [emptyAccum]⟩
        (by simp) c₀ hc₀'
      rcases hg with ⟨rs, _, _, _, _, hle⟩ | ⟨r, _, _, hsec', _, hdisj⟩
      · exact Or.inl (htok ▸ hle)
      · rcases hdisj with h | ⟨para, _, ht, htk, hlt⟩
        · exact Or.inl (htok ▸ h)
        · refine Or.inr ⟨by rw [hsec, hsec']; rfl, ?_, para, by rw [htext, ht], ?_⟩
          · rw [htok, htk]; exact hlt
          · rw [htok, htk]
  · intro files maxT c hc
    rw [generate_chunks] at hc
    have hg := genLoop_good maxT files files [] 0 0 0 []
      (fun f h => h)
      ⟨[], by simp, by simp, by simp, Or.inl (Nat.zero_le _), by simp⟩
      (by simp) c hc
    obtain ⟨fs, fl, _, hsub, hfiles, _, _, hdisj⟩ := hg
    rcases hdisj with h | ⟨f, hfs, htok, hlt⟩
    · exact Or.inl h
    · have hfmem : f ∈ files := by
        refine hsub f ?_
        rw [hfs]
        exact List.mem_cons_self _ _
      exact Or.inr ⟨by rw [hfiles, hfs]; rfl, hlt, f, hfmem, htok⟩

-- Witness for claim_C1_chunk_size_bounded: both parts applied at small
-- concrete inputs with an explicit member chunk.
theorem claim_C1_witness :
    ((⟨["content".data], "hello".data, none, 1, none, none⟩ : DChunk) ∈
        split_into_chunks "hello".data [] 3500 ∧
      ((1 : Nat) ≤ 3500 ∨
        ((["content".data] : List (List Char)).length = 1 ∧ 3500 < 1 ∧
          ∃ para, "hello".data = stripChars (para ++ nlnl) ∧
            1 = estimate_tokens para))) ∧
    ((⟨0, 0, "chunk_00_P0.md".data, ["model.py".data], 11⟩ : CChunk) ∈
        generate_chunks 4000 [⟨"model.py".data, 0, 1, "x".data⟩] ∧
      ((11 : Nat) ≤ 4000 ∨
        ((["model.py".data] : List (List Char)).length = 1 ∧ 4000 < 11 ∧
          ∃ f ∈ [(⟨"model.py".data, 0, 1, "x".data⟩ : CFile)],
            11 = estimate_tokens (fileContent f)))) :=
  ⟨⟨by decide, claim_C1_chunk_size_bounded.1 "hello".data [] 3500
      ⟨["content".data], "hello".data, none, 1, none, none⟩ (by decide)⟩,
   ⟨by decide, claim_C1_chunk_size_bounded.2 [⟨"model.py".data, 0, 1, "x".data⟩] 4000
      ⟨0, 0, "chunk_00_P0.md".data, ["model.py".data], 11⟩ (by decide)⟩⟩

/-- Claim C3, amended: in chunk_paper (split_into_chunks) every produced
chunk's priority is the minimum of its member ranges' priorities; in
analyze_code (generate_chunks) every produced chunk's priority is the
priority of its last member file, not the minimum. -/
theorem claim_C3_amended :
    (∀ (text : List Char) (sections : List (Nat × List Char × List Char)) (maxT : Nat),
      sections ≠ [] →
      ∀ c ∈ split_into_chunks text sections maxT,
        ∃ (rs : List SectionRange) (p : Nat), rs ≠ [] ∧
          (∀ r ∈ rs, r ∈ buildRanges text.length sections) ∧
          c.sections = rs.map SectionRange.name ∧
          (rs.map SectionRange.priority).min? = some p ∧
          c.priority = some p) ∧
    (∀ (files : List CFile) (maxT : Nat),
      ∀ c ∈ generate_chunks maxT files,
        ∃ (fs : List CFile) (fl : CFile), fs ≠ [] ∧
          (∀ f ∈ fs, f ∈ files) ∧
          c.files = fs.map (fun f => membersOfContent (fileContent f)) ∧
          fs.getLast? = some fl ∧ c.priority = fl.priority) := by
  constructor
  · intro text sections maxT hne c hc
    rw [split_into_chunks, if_neg (by
      intro h
      exact hne (List.isEmpty_iff.mp h))] at hc
    obtain ⟨c₀, hc₀, hsec, _, hpr, _, _, _⟩ := mem_assignIdx hc
    have hc₀' : c₀ ∈ packLoop text maxT (buildRanges text.length sections)
        emptyAccum [] := mem_sortByPrio.mp hc₀
    have hg := packLoop_good text maxT (buildRanges text.length sections)
      (buildRanges text.length sections) emptyAccum [] (fun r h => h)
      ⟨[], by simp, by simp [emptyAccum], by simp [emptyAccum, foldPrio],
        by simp [emptyAccum], by simp [emptyAccum], by simp [emptyAccum]⟩
      (by simp) c₀ hc₀'
    rcases hg with ⟨rs, hrne, hsub, hsec', hpr', _⟩ | ⟨r, hrR, _, hsec', hpr', _⟩
    · refine ⟨rs, foldPrio rs, hrne, hsub, by rw [hsec, hsec'], ?_, by rw [hpr, hpr']⟩
      exact foldPrio_eq_min rs hrne
        (fun r hr => buildRanges_priority_le text.length sections r (hsub r hr))
    · have hple : r.priority ≤ 4 := buildRanges_priority_le text.length sections r hrR
      have hfold : foldPrio [r] = r.priority := by
        rw [foldPrio, List.foldl_cons, List.foldl_nil]
        exact Nat.min_eq_right (Nat.le_trans hple (by norm_num))
      refine ⟨[r], r.priority, by simp, by simpa using hrR, by rw [hsec, hsec']; rfl,
        ?_, by rw [hpr, hpr']⟩
      have := foldPrio_eq_min [r] (by simp) (by simpa using hple)
      rw [hfold] at this
      exact this
  · intro files maxT c hc
    rw [generate_chunks] at hc
    obtain ⟨fs, fl, hne, hsub, hfiles, hlast, hpr, _⟩ := genLoop_good maxT files files
      [] 0 0 0 [] (fun f h => h)
      ⟨[], by simp, by simp, by simp, Or.inl (Nat.zero_le _), by simp⟩
      (by simp) c hc
    exact ⟨fs, fl, hne, hsub, hfiles, hlast, hpr⟩

-- Witness for claim_C3_amended: both parts applied at small concrete inputs.
theorem claim_C3_witness :
    (∃ (rs : List SectionRange) (p : Nat), rs ≠ [] ∧
        (∀ r ∈ rs, r ∈ buildRanges ("aaaa".data).length
          [(0, "Abstract".data, "abstract".data)]) ∧
        (⟨["Abstract".data], "aaaa\n\n".data, some 0, 1, some 0, some 1⟩ :
          DChunk).sections = rs.map SectionRange.name ∧
        (rs.map SectionRange.priority).min? = some p ∧
        (⟨["Abstract".data], "aaaa\n\n".data, some 0, 1, some 0, some 1⟩ :
          DChunk).priority = some p) ∧
    (∃ (fs : List CFile) (fl : CFile), fs ≠ [] ∧
        (∀ f ∈ fs, f ∈ [(⟨"model.py".data, 0, 1, "x".data⟩ : CFile)]) ∧
        (⟨0, 0, "chunk_00_P0.md".data, ["model.py".data], 11⟩ : CChunk).files =
          fs.map (fun f => membersOfContent (fileContent f)) ∧
        fs.getLast? = some fl ∧
        (⟨0, 0, "chunk_00_P0.md".data, ["model.py".data], 11⟩ : CChunk).priority =
          fl.priority) :=
  ⟨claim_C3_amended.1 "aaaa".data [(0, "Abstract".data, "abstract".data)] 100
      (by decide)
      ⟨["Abstract".data], "aaaa\n\n".data, some 0, 1, some 0, some 1⟩ (by decide),
   claim_C3_amended.2 [⟨"model.py".data, 0, 1, "x".data⟩] 4000
      ⟨0, 0, "chunk_00_P0.md".data, ["model.py".data], 11⟩ (by decide)⟩

/-- Claim C2, amended: for a non-empty unit sequence none of whose units
is oversized, the packing loop of split_into_chunks preserves the unit
sequence exactly — concatenating the member lists of the packed chunks
in order reproduces the section names in input order — and the returned
chunk list (after the final stable sort by priority and index
assignment) has a member concatenation that is a permutation of the
input unit sequence (reordered only by the sort).  generate_chunks
preserves the file sequence exactly: concatenating its chunks' file
lists reproduces the input paths in order (for paths without newlines
or embedded file markers). -/
theorem claim_C2_roundtrip_amended :
    (∀ (text : List Char) (sections : List (Nat × List Char × List Char)) (maxT : Nat),
      sections ≠ [] →
      (∀ r ∈ buildRanges text.length sections,
        estimate_tokens (pySlice text r.start r.stop) ≤ maxT) →
      concatSections (packLoop text maxT (buildRanges text.length sections)
          emptyAccum []) = sections.map (fun s => s.2.1) ∧
        (concatSections (split_into_chunks text sections maxT)).Perm
          (sections.map (fun s => s.2.1))) ∧
    (∀ (files : List CFile) (maxT : Nat),
      (∀ f ∈ files, '\n' ∉ f.path ∧ stripFileTag f.path = f.path) →
      concatFiles (generate_chunks maxT files) = files.map CFile.path) := by
  constructor
  · intro text sections maxT hne hsmall
    have hpack : concatSections (packLoop text maxT (buildRanges text.length sections)
        emptyAccum []) = sections.map (fun s => s.2.1) := by
      rw [packLoop_concat text maxT _ _ _ hsmall (by simp [emptyAccum])]
      simp only [concatSections, List.foldr_nil, List.nil_append, emptyAccum]
      exact buildRanges_names text.length sections
    refine ⟨hpack, ?_⟩
    rw [split_into_chunks, if_neg (fun h => hne (List.isEmpty_iff.mp h))]
    rw [concatSections_assignIdx]
    refine (concatSections_perm (sortByPrio_perm _)).trans ?_
    rw [hpack]
  · intro files maxT hpaths
    rw [generate_chunks, genLoop_concat]
    simp only [concatFiles, List.foldr_nil, List.map_nil, List.nil_append]
    refine List.map_congr_left ?_
    intro f hf
    rw [membersOfContent_fileContent f (hpaths f hf).1, (hpaths f hf).2]

-- Witness for claim_C2_roundtrip_amended at small concrete inputs.
theorem claim_C2_witness :
    (concatSections (packLoop "aaaa".data 100
        (buildRanges ("aaaa".data).length [(0, "Abstract".data, "abstract".data)])
        emptyAccum []) =
        [(0, "Abstract".data, "abstract".data)].map (fun s => s.2.1) ∧
      (concatSections (split_into_chunks "aaaa".data
        [(0, "Abstract".data, "abstract".data)] 100)).Perm
        ([(0, "Abstract".data, "abstract".data)].map (fun s => s.2.1))) ∧
    concatFiles (generate_chunks 4000 [⟨"model.py".data, 0, 1, "x".data⟩]) =
      [(⟨"model.py".data, 0, 1, "x".data⟩ : CFile)].map CFile.path :=
  ⟨claim_C2_roundtrip_amended.1 "aaaa".data [(0, "Abstract".data, "abstract".data)] 100
      (by decide) (by decide),
   claim_C2_roundtrip_amended.2 [⟨"model.py".data, 0, 1, "x".data⟩] 4000 (by decide)⟩

/-- Claim C7: when a single unit's size estimate alone exceeds the
budget, the packer (1) handles a lone oversized unit by emitting exactly
the token-split sub-slices of its text, each as its own chunk tagged
with the unit's tier via its section-table priority; (2) every sub-slice
chunk of split_by_tokens is a single-member chunk whose estimate is at
most the budget, except a forced irreducible remainder — a single
paragraph whose own estimate exceeds the budget; (3) with a preceding
in-budget unit the open accumulator is first flushed as a completed
chunk and then the oversized unit's tagged sub-slices follow; and (4) in
the concrete scenario of one unit of estimate 501 (nominal size 500)
under budget 200 whose paragraph boundaries give pieces of estimates
[200, 200, 100], exactly three single-member chunks result with those
estimates. -/
theorem claim_C7_oversized_split :
    (∀ (text : List Char) (start : Nat) (name norm : List Char) (maxT : Nat),
      maxT < estimate_tokens (pySlice text start text.length) →
      split_into_chunks text [(start, name, norm)] maxT =
        assignIdx ((split_by_tokens (pySlice text start text.length) maxT name).map
          (tagSub ⟨start, text.length, name, norm, rangePriority norm⟩))) ∧
    (∀ (text : List Char) (maxT : Nat) (name : List Char),
      ∀ sc ∈ split_by_tokens text maxT name,
        sc.sections = [name] ∧
          (sc.tokens ≤ maxT ∨
            ∃ para ∈ splitParas text, sc.text = stripChars (para ++ nlnl) ∧
              sc.tokens = estimate_tokens para ∧ maxT < estimate_tokens para)) ∧
    (∀ (text : List Char) (maxT : Nat) (r1 r2 : SectionRange),
      estimate_tokens (pySlice text r1.start r1.stop) ≤ maxT →
      maxT < estimate_tokens (pySlice text r2.start r2.stop) →
      packLoop text maxT [r1, r2] emptyAccum [] =
        accToChunk ⟨[r1.name], pySlice text r1.start r1.stop ++ nlnl,
            min 999 r1.priority, estimate_tokens (pySlice text r1.start r1.stop)⟩ ::
          (split_by_tokens (pySlice text r2.start r2.stop) maxT r2.name).map
            (tagSub r2)) ∧
    split_into_chunks
        (List.replicate 800 'a' ++ nlnl ++
          (List.replicate 800 'b' ++ nlnl ++ List.replicate 400 'c'))
        [(0, "Methods".data, "method".data)] 200 =
      [⟨["Methods".data], List.replicate 800 'a', some 1, 200, some 0, some 3⟩,
       ⟨["Methods".data], List.replicate 800 'b', some 1, 200, some 1, some 3⟩,
       ⟨["Methods".data], List.replicate 400 'c', some 1, 100, some 2, some 3⟩] := by
  refine ⟨?_, ?_, ?_, scenario500_eval⟩
  · intro text start name norm maxT hbig
    rw [split_into_chunks, if_neg (by simp)]
    rw [show buildRanges text.length [(start, name, norm)] =
        [⟨start, text.length, name, norm, rangePriority norm⟩] from by
      rw [buildRanges, buildRanges]; rfl]
    rw [packLoop, if_pos hbig]
    simp only [if_neg (show ¬((emptyAccum.text ≠ [])) from fun h => h rfl)]
    rw [packLoop]
    simp only [if_neg (show ¬((emptyAccum.text ≠ [])) from fun h => h rfl)]
    rw [List.nil_append]
    rw [sortByPrio_const _ (by
      intro c hc
      rcases List.mem_map.mp hc with ⟨sc, _, rfl⟩
      rfl)]
  · intro text maxT name sc hsc
    obtain ⟨hsec, _, _, _, hdisj⟩ := split_by_tokens_good text maxT name sc hsc
    exact ⟨hsec, hdisj⟩
  · intro text maxT r1 r2 h1 h2
    rw [packLoop, if_neg (Nat.not_lt.mpr h1), if_neg (fun h => h.2 rfl)]
    rw [packLoop, if_pos (by simpa using h2)]
    simp only [emptyAccum, List.nil_append, Nat.zero_add]
    rw [if_pos (append_nlnl_ne_nil (pySlice text r1.start r1.stop))]
    rw [packLoop]
    rw [if_neg (show ¬(((⟨[], [], 999, 0⟩ : Accum).text ≠ [])) from fun h => h rfl)]
    simp only [List.singleton_append]

-- Witness for claim_C7_oversized_split's universally quantified parts at
-- a concrete oversized unit: eight characters (estimate 2) under budget 1.
theorem claim_C7_witness :
    (1 < estimate_tokens (pySlice "aaaaaaaa".data 0 ("aaaaaaaa".data).length) ∧
      split_into_chunks "aaaaaaaa".data [(0, "Unit".data, "xx".data)] 1 =
        assignIdx ((split_by_tokens (pySlice "aaaaaaaa".data 0
            ("aaaaaaaa".data).length) 1 "Unit".data).map
          (tagSub ⟨0, ("aaaaaaaa".data).length, "Unit".data, "xx".data,
            rangePriority "xx".data⟩))) ∧
    ((⟨["s".data], "aaaaaaaa".data, none, 2, none, none⟩ : DChunk).sections =
        ["s".data] ∧
      ((⟨["s".data], "aaaaaaaa".data, none, 2, none, none⟩ : DChunk).tokens ≤ 1 ∨
        ∃ para ∈ splitParas "aaaaaaaa".data,
          (⟨["s".data], "aaaaaaaa".data, none, 2, none, none⟩ : DChunk).text =
            stripChars (para ++ nlnl) ∧
          (⟨["s".data], "aaaaaaaa".data, none, 2, none, none⟩ : DChunk).tokens =
            estimate_tokens para ∧ 1 < estimate_tokens para)) :=
  ⟨⟨by decide, claim_C7_oversized_split.1 "aaaaaaaa".data 0 "Unit".data "xx".data 1
      (by decide)⟩,
   claim_C7_oversized_split.2.1 "aaaaaaaa".data 1 "s".data
      ⟨["s".data], "aaaaaaaa".data, none, 2, none, none⟩ (by decide)⟩
